import Mathlib

/-!
Verification of the ebenezer epistemic-feature pipeline core:
clause segmentation (`ClauseSegmenter`), source attribution with the
inheritance pass (`AttributionExtractor`), and weighted span pooling
(`SpanEmbeddingCalculator`).  The definitions below are a shallow
embedding of the Python source; theorems check the specification's
claims against them.
-/

namespace Ebenezer

/-- A token of the annotated document: position `i`, surface text,
lemma, POS tag, dependency label, head index (self-referential for the
sentence root) and an optional dense embedding (modelled over `ℚ`). -/
structure Token where
  i : Nat
  text : String
  lemma_ : String
  pos : String
  dep : String
  head : Nat
  emb : Option (List ℚ) := none
deriving DecidableEq, Repr, Inhabited

/-- A named-entity span: a `[start, stop)` token range with a label. -/
structure EntSpan where
  start : Nat
  stop : Nat
  label : String
deriving DecidableEq, Repr, Inhabited

/-- An annotated document: tokens in order, named-entity spans and
noun-phrase (noun-chunk) spans. -/
structure Doc where
  tokens : List Token
  ents : List EntSpan := []
  nounChunks : List (Nat × Nat) := []
deriving DecidableEq, Repr, Inhabited

/-- The token at index `i`, if in range. -/
def tokAt (d : Doc) (i : Nat) : Option Token :=
  d.tokens[i]?

/-- The head index of the token at `i` (identity out of range). -/
def headOf (d : Doc) (i : Nat) : Nat :=
  match tokAt d i with
  | some t => t.head
  | none => i

/-- The dependency label of the token at `i`. -/
def depOf (d : Doc) (i : Nat) : String :=
  match tokAt d i with
  | some t => t.dep
  | none => ""

/-- The surface text of the token at `i`. -/
def textOf (d : Doc) (i : Nat) : String :=
  match tokAt d i with
  | some t => t.text
  | none => ""

/-- The syntactic children of token `t`: every document token whose
head is `t` (a token is never its own child). -/
def children (d : Doc) (t : Token) : List Token :=
  d.tokens.filter (fun c => c.head == t.i && c.i != t.i)

/-- Well-formedness of a document: token `k` carries index `k`, and
every head index points inside the document. -/
def WF (d : Doc) : Prop :=
  d.tokens.map Token.i = List.range d.tokens.length ∧
  ∀ t ∈ d.tokens, t.head < d.tokens.length

instance (d : Doc) : Decidable (WF d) := by
  unfold WF; infer_instance

/-- Iterating head links from `i` reaches a self-headed root within
`k` steps. -/
def reachesRoot (d : Doc) : Nat → Nat → Bool
  | 0, i => headOf d i == i
  | k+1, i => headOf d i == i || reachesRoot d k (headOf d i)

/-- The dependency graph is acyclic: every token's head chain reaches a
self-headed root within `tokens.length` steps. -/
def Acyclic (d : Doc) : Prop :=
  ∀ i, i < d.tokens.length → reachesRoot d d.tokens.length i = true

instance (d : Doc) : Decidable (Acyclic d) :=
  Nat.decidableBallLT _ _

/-! ## Clause segmentation (`ClauseSegmenter`) -/

/-- Dependency labels that anchor a new clause (`CLAUSE_DEPS`). -/
def CLAUSE_DEPS : List String :=
  ["ROOT", "ccomp", "xcomp", "advcl", "relcl", "parataxis"]

/-- Labels that introduce a clause without anchoring it
(`CLAUSE_MARKERS`). -/
def CLAUSE_MARKERS : List String := ["mark", "cc"]

/-- A token anchors a clause iff its dependency label is in
`CLAUSE_DEPS` and its POS is VERB or AUX. -/
def isAnchorTok (t : Token) : Bool :=
  CLAUSE_DEPS.contains t.dep && (t.pos == "VERB" || t.pos == "AUX")

/-- All clause anchors of the document, in position order
(`_find_clause_roots`). -/
def clauseRoots (d : Doc) : List Token :=
  d.tokens.filter isAnchorTok

/-- The recursive subtree walk of `_get_clause_tokens`, with explicit
fuel: skip tokens already claimed; do not claim or descend through a
token that is itself a different anchor; otherwise claim the token and
visit its children.  The state is the shared claimed index list paired
with the accumulated token list. -/
def walkAux (d : Doc) (verb : Token) :
    Nat → Token → List Nat × List Token → List Nat × List Token
  | 0, _, st => st
  | fuel+1, t, st =>
    if t.i ∈ st.1 then st
    else if t.i ≠ verb.i ∧ isAnchorTok t = true then st
    else (children d t).foldl (fun s c => walkAux d verb fuel c s)
      (st.1 ++ [t.i], st.2 ++ [t])

instance : DecidableRel (fun a b : Token => a.i ≤ b.i) :=
  fun a b => Nat.decLe a.i b.i

/-- `_get_clause_tokens`: walk from the anchor and return the updated
claimed set with the claimed tokens sorted by position. -/
def getClauseTokens (d : Doc) (fuel : Nat) (verb : Token)
    (claimed : List Nat) : List Nat × List Token :=
  let p := walkAux d verb fuel verb (claimed, [])
  (p.1, p.2.insertionSort (fun a b => a.i ≤ b.i))

/-- The head-chain loop of `_compute_depth`, with explicit fuel: while
the current token is not self-headed, count it when its label is in
`CLAUSE_DEPS` and move to its head.  `none` means the fuel ran out. -/
def computeDepthAux (d : Doc) : Nat → Nat → Nat → Option Nat
  | 0, _, _ => none
  | fuel+1, i, depth =>
    if headOf d i = i then some depth
    else computeDepthAux d fuel (headOf d i)
      (if depOf d i ∈ CLAUSE_DEPS then depth + 1 else depth)

/-- Total depth function used by the segmenter model (defaults to 0 if
the fuel runs out, which cannot happen on acyclic documents). -/
def depthD (d : Doc) (fuel : Nat) (i : Nat) : Nat :=
  (computeDepthAux d fuel i 0).getD 0

/-- The first child of the anchor whose label is a clause marker
(`_get_marker`). -/
def getMarker (d : Doc) (verb : Token) : Option String :=
  ((children d verb).find? (fun c => CLAUSE_MARKERS.contains c.dep)).map Token.text

/-- A clause as produced by `ClauseSegmenter.segment`: its claimed
tokens in position order, rendered text, anchor text and token, anchor
dependency label, head-clause reference, depth and marker. -/
structure Clause where
  toks : List Token
  text : String
  root : String
  rootTok : Token
  rootDep : String
  head : Option String
  depth : Nat
  marker : Option String
deriving DecidableEq, Repr, Inhabited

/-- Start offset of a clause (position of its first token). -/
def clauseStart (c : Clause) : Nat :=
  match c.toks with
  | [] => 0
  | t :: _ => t.i

/-- Build the clause record emitted by `segment` for anchor `verb` with
walked tokens `toksS`. -/
def mkClause (d : Doc) (fuel : Nat) (verb : Token) (toksS : List Token) : Clause :=
  { toks := toksS,
    text := String.intercalate " "
      ((toksS.filter (fun t => t.pos != "PUNCT")).map Token.text),
    root := verb.text,
    rootTok := verb,
    rootDep := verb.dep,
    head := if verb.dep = "ROOT" then none else some (textOf d verb.head),
    depth := depthD d fuel verb.i,
    marker := getMarker d verb }

/-- One iteration of `segment`'s loop: walk from the anchor, drop the
clause if no token was claimed, otherwise emit it. -/
def segStep (d : Doc) (fuel : Nat) (st : List Nat × List Clause)
    (verb : Token) : List Nat × List Clause :=
  let r := getClauseTokens d fuel verb st.1
  match r.2 with
  | [] => (r.1, st.2)
  | t0 :: ts => (r.1, st.2 ++ [mkClause d fuel verb (t0 :: ts)])

instance : DecidableRel (fun a b : Nat × Token => b.1 ≤ a.1) :=
  fun a b => Nat.decLe b.1 a.1

instance : DecidableRel (fun a b : Nat × Clause => a.1 ≤ b.1) :=
  fun a b => Nat.decLe a.1 b.1

/-- The anchors in the processing order of `segment`: each anchor is
decorated with its depth (the sort key is computed once per element,
as Python's `sorted` does), stably sorted in descending depth order. -/
def rootsByDepth (d : Doc) (fuel : Nat) : List Token :=
  (((clauseRoots d).map (fun t => (depthD d fuel t.i, t))).insertionSort
    (fun a b => b.1 ≤ a.1)).map Prod.snd

/-- The clauses emitted by `segment`'s loop, in processing order. -/
def emittedClauses (d : Doc) (fuel : Nat) : List Clause :=
  ((rootsByDepth d fuel).foldl (segStep d fuel) ([], [])).2

/-- `ClauseSegmenter.segment` with explicit fuel: compute each anchor's
depth once, process anchors in stable descending depth order sharing
the claimed set, then sort the emitted clauses by start offset. -/
def segmentF (d : Doc) (fuel : Nat) : List Clause :=
  (((emittedClauses d fuel).map (fun c => (clauseStart c, c))).insertionSort
    (fun a b => a.1 ≤ b.1)).map Prod.snd

/-- `ClauseSegmenter.segment`: the fuel `tokens.length + 1` is enough
on every well-formed acyclic document. -/
def segment (d : Doc) : List Clause :=
  segmentF d (d.tokens.length + 1)

/-- The ancestors of token `i` reached by following head links up to
(and excluding) the sentence root, starting with `i` itself. -/
def ancestorsToRoot (d : Doc) : Nat → Nat → List Nat
  | 0, _ => []
  | fuel+1, i =>
    if headOf d i = i then []
    else i :: ancestorsToRoot d fuel (headOf d i)

/-! ## Attribution extraction (`AttributionExtractor`) -/

def SOURCE_NAMED_ENTITY : String := "NAMED_ENTITY"
def SOURCE_NOMINAL : String := "NOMINAL"
def SOURCE_PRONOMINAL : String := "PRONOMINAL"
def SOURCE_JOURNALIST : String := "JOURNALIST"
def SOURCE_PASSIVE : String := "PASSIVE"

/-- Entity labels that can serve as a named-entity source. -/
def NER_SOURCE_TYPES : List String :=
  ["ORG", "PERSON", "GPE", "NORP", "FAC", "EVENT"]

/-- Pronouns that signal authorial (journalist) voice. -/
def JOURNALIST_PRONOUNS : List String := ["it", "there", "we", "our"]

/-- The two lexicons the extractor consumes. -/
structure Lexicons where
  attributionVerbs : List String
  epistemicVerbs : List String
deriving DecidableEq, Repr, Inhabited

/-- Lowercasing as Python's `str.lower` on ASCII text, written over the
character list so that it evaluates. -/
def lowerStr (s : String) : String := String.mk (s.data.map Char.toLower)

/-- `_find_nsubj`: the first child of the verb whose dependency label
is nsubj or nsubjpass. -/
def findNsubj (d : Doc) (verb : Token) : Option Token :=
  (children d verb).find? (fun c => c.dep == "nsubj" || c.dep == "nsubjpass")

/-- Text of the token range `[s, e)`, non-punctuation-aware joining is
not applied here: spans render their tokens joined by single spaces. -/
def spanText (d : Doc) (s e : Nat) : String :=
  String.intercalate " " (((d.tokens.drop s).take (e - s)).map Token.text)

/-- `_get_entity_span`: the first named-entity span containing the
token whose label is a source type. -/
def getEntitySpan (d : Doc) (tok : Token) : Option EntSpan :=
  d.ents.find? (fun e =>
    e.start ≤ tok.i && tok.i < e.stop && NER_SOURCE_TYPES.contains e.label)

/-- `_get_noun_chunk`: the first noun chunk containing the token. -/
def getNounChunk (d : Doc) (tok : Token) : Option (Nat × Nat) :=
  d.nounChunks.find? (fun ch => ch.1 ≤ tok.i && tok.i < ch.2)

/-- `_is_passive`: the verb has an auxpass child. -/
def isPassive (d : Doc) (verb : Token) : Bool :=
  (children d verb).any (fun c => c.dep == "auxpass")

/-- A clause enriched with its attribution record. -/
structure AClause extends Clause where
  source_text : Option String
  source_type : Option String
  source_ner_label : Option String
  is_attribution_verb : Bool
  is_epistemic_verb : Bool
  inherited : Bool
deriving DecidableEq, Repr, Inhabited

/-- `AttributionExtractor.extract`: per-clause source classification. -/
def extract (lx : Lexicons) (d : Doc) (c : Clause) : AClause :=
  let verb := c.rootTok
  let res : Option String × Option String × Option String :=
    match findNsubj d verb with
    | some ns =>
      if lowerStr ns.text ∈ JOURNALIST_PRONOUNS ∧
          (ns.dep = "nsubj" ∨ ns.dep = "expl") ∧ c.depth = 0 then
        (none, some SOURCE_JOURNALIST, none)
      else
        match getEntitySpan d ns with
        | some e => (some (spanText d e.start e.stop), some SOURCE_NAMED_ENTITY, some e.label)
        | none =>
          match getNounChunk d ns with
          | some ch =>
            (some (spanText d ch.1 ch.2),
             some (if ns.pos = "PRON" then SOURCE_PRONOMINAL else SOURCE_NOMINAL),
             none)
          | none =>
            if ns.pos = "PRON" then (some ns.text, some SOURCE_PRONOMINAL, none)
            else (none, none, none)
    | none =>
      if isPassive d verb then (none, some SOURCE_PASSIVE, none)
      else (none, some SOURCE_JOURNALIST, none)
  { toClause := c,
    source_text := res.1,
    source_type := res.2.1,
    source_ner_label := res.2.2,
    is_attribution_verb := lx.attributionVerbs.contains (lowerStr verb.lemma_),
    is_epistemic_verb := lx.epistemicVerbs.contains (lowerStr verb.lemma_),
    inherited := false }

/-- `_build_parent_map` lookup: the Python dict maps each root text to
the clause dict of its last occurrence, and the dicts are shared, so a
lookup sees the current (possibly already updated) record. -/
def lookupLast (cs : List AClause) (h : String) : Option AClause :=
  cs.reverse.find? (fun c => c.root == h)

/-- The parent record consulted for a clause: lookup of its head text,
or nothing when the head reference is null. -/
def inheritParent (cs : List AClause) (c : AClause) : Option AClause :=
  match c.head with
  | none => none
  | some h => lookupLast cs h

/-- A clause attempts inheritance if its source type is JOURNALIST, or
it is neither an attribution nor an epistemic verb and has a non-null
head reference. -/
def inheritEligible (c : AClause) : Prop :=
  c.source_type = some SOURCE_JOURNALIST ∨
    (c.is_attribution_verb = false ∧ c.is_epistemic_verb = false ∧ c.head ≠ none)

instance (c : AClause) : Decidable (inheritEligible c) := by
  unfold inheritEligible; infer_instance

/-- One iteration of `_inherit_sources` on the clause at index `k`,
mutating the shared list in place as the Python loop does. -/
def inheritAt (cs : List AClause) (k : Nat) : List AClause :=
  match cs[k]? with
  | none => cs
  | some c =>
    if inheritEligible c then
      match inheritParent cs c with
      | some p =>
        if p.source_text ≠ none then
          cs.set k { c with source_text := p.source_text,
                            source_type := p.source_type,
                            source_ner_label := p.source_ner_label,
                            inherited := true }
        else cs.set k { c with inherited := false }
      | none => cs.set k { c with inherited := false }
    else cs.set k { c with inherited := false }

/-- `_inherit_sources`: the single flat loop over the clause list. -/
def inheritSources (cs : List AClause) : List AClause :=
  (List.range cs.length).foldl inheritAt cs

/-- The list state after the first `k` iterations of the inheritance
loop. -/
def stateAt (cs : List AClause) (k : Nat) : List AClause :=
  (List.range k).foldl inheritAt cs

/-- `AttributionExtractor.extract_all`: classify every clause, then run
the inheritance pass. -/
def extractAll (lx : Lexicons) (d : Doc) (cs : List Clause) : List AClause :=
  inheritSources (cs.map (extract lx d))

/-! ## Span embedding (`SpanEmbeddingCalculator`) -/

/-- POS weights of the weighted pooling tier. -/
def POS_WEIGHTS : List (String × ℚ) :=
  [("VERB", 2), ("NOUN", 2), ("PROPN", 2), ("ADJ", 3/2), ("ADV", 1)]

/-- Componentwise vector sum. -/
def vadd (v w : List ℚ) : List ℚ := List.zipWith (· + ·) v w

/-- Scalar multiple of a vector. -/
def vscale (a : ℚ) (v : List ℚ) : List ℚ := v.map (a * ·)

/-- `get_span_embedding`: weighted mean of content-POS token embeddings;
falling back to the unweighted mean over non-punctuation tokens with
embeddings; falling back to the zero vector of dimension 768. -/
def getSpanEmbedding (span : List Token) : List ℚ :=
  let pairs := span.filterMap (fun t =>
    match t.emb, POS_WEIGHTS.lookup t.pos with
    | some v, some w => some (v, w)
    | _, _ => none)
  match pairs with
  | [] =>
    let vecs := span.filterMap (fun t =>
      if t.pos ≠ "PUNCT" ∧ t.pos ≠ "SPACE" then t.emb else none)
    match vecs with
    | [] => List.replicate 768 (0 : ℚ)
    | v :: rest =>
      vscale (1 / (vecs.length : ℚ)) (rest.foldl vadd v)
  | p :: rest =>
    let wsum : ℚ := (pairs.map Prod.snd).foldl (· + ·) 0
    vscale (1 / wsum) (rest.foldl (fun a q => vadd a (vscale q.2 q.1)) (vscale p.2 p.1))

/-! ## Concrete documents used to settle the claims -/

/-- Lexicons of the end-to-end example: "warn" is an attribution verb,
neither "warn" nor "trigger" is epistemic. -/
def exLex : Lexicons :=
  { attributionVerbs := ["say", "warn", "insist"],
    epistemicVerbs := ["believe", "know", "suspect"] }

/-- Dependency parse of "Senior economists have reportedly warned that
the proposed tax reforms could potentially trigger widespread
financial instability": ROOT anchor "warned" (nsubj "economists" inside
the noun chunk "Senior economists"), ccomp anchor "trigger" (nsubj
"reforms" inside the noun chunk "the proposed tax reforms"). -/
def exDoc : Doc :=
  { tokens :=
      [ { i := 0, text := "Senior", lemma_ := "senior", pos := "ADJ", dep := "amod", head := 1 },
        { i := 1, text := "economists", lemma_ := "economist", pos := "NOUN", dep := "nsubj", head := 4 },
        { i := 2, text := "have", lemma_ := "have", pos := "AUX", dep := "aux", head := 4 },
        { i := 3, text := "reportedly", lemma_ := "reportedly", pos := "ADV", dep := "advmod", head := 4 },
        { i := 4, text := "warned", lemma_ := "warn", pos := "VERB", dep := "ROOT", head := 4 },
        { i := 5, text := "that", lemma_ := "that", pos := "SCONJ", dep := "mark", head := 12 },
        { i := 6, text := "the", lemma_ := "the", pos := "DET", dep := "det", head := 9 },
        { i := 7, text := "proposed", lemma_ := "propose", pos := "VERB", dep := "amod", head := 9 },
        { i := 8, text := "tax", lemma_ := "tax", pos := "NOUN", dep := "compound", head := 9 },
        { i := 9, text := "reforms", lemma_ := "reform", pos := "NOUN", dep := "nsubj", head := 12 },
        { i := 10, text := "could", lemma_ := "could", pos := "AUX", dep := "aux", head := 12 },
        { i := 11, text := "potentially", lemma_ := "potentially", pos := "ADV", dep := "advmod", head := 12 },
        { i := 12, text := "trigger", lemma_ := "trigger", pos := "VERB", dep := "ccomp", head := 4 },
        { i := 13, text := "widespread", lemma_ := "widespread", pos := "ADJ", dep := "amod", head := 15 },
        { i := 14, text := "financial", lemma_ := "financial", pos := "ADJ", dep := "amod", head := 15 },
        { i := 15, text := "instability", lemma_ := "instability", pos := "NOUN", dep := "dobj", head := 12 } ],
    ents := [],
    nounChunks := [(0, 2), (6, 10), (13, 16)] }

/-- A minimal well-formed acyclic document: "We slept ."  (depth-0 ROOT
clause with nsubj "We"). -/
def smallDoc : Doc :=
  { tokens :=
      [ { i := 0, text := "We", lemma_ := "we", pos := "PRON", dep := "nsubj", head := 1 },
        { i := 1, text := "slept", lemma_ := "sleep", pos := "VERB", dep := "ROOT", head := 1 },
        { i := 2, text := ".", lemma_ := ".", pos := "PUNCT", dep := "punct", head := 1 } ],
    ents := [],
    nounChunks := [] }

/-- "We were told": the subject "We" carries the dependency label
nsubjpass, not nsubj. -/
def cxDoc : Doc :=
  { tokens :=
      [ { i := 0, text := "We", lemma_ := "we", pos := "PRON", dep := "nsubjpass", head := 2 },
        { i := 1, text := "were", lemma_ := "be", pos := "AUX", dep := "auxpass", head := 2 },
        { i := 2, text := "told", lemma_ := "tell", pos := "VERB", dep := "ROOT", head := 2 } ],
    ents := [],
    nounChunks := [] }

/-! ## Claim theorems: span embedding -/

/-- C7: for every span in which every token's embedding is null,
`getSpanEmbedding` returns the zero vector of dimension 768 (the
code's fixed default): both candidate tiers treat tokens without
embeddings as absent, and the total function never raises. -/
theorem spanEmbedding_all_null_zero (span : List Token)
    (h : ∀ t ∈ span, t.emb = none) :
    getSpanEmbedding span = List.replicate 768 0 := by
  unfold getSpanEmbedding
  have h1 : span.filterMap (fun t =>
      match t.emb, POS_WEIGHTS.lookup t.pos with
      | some v, some w => some (v, w)
      | _, _ => none) = [] := by
    rw [List.filterMap_eq_nil_iff]
    intro a ha
    rw [h a ha]
  have h2 : span.filterMap (fun t =>
      if t.pos ≠ "PUNCT" ∧ t.pos ≠ "SPACE" then t.emb else none) = [] := by
    rw [List.filterMap_eq_nil_iff]
    intro a ha
    rw [h a ha]
    split <;> rfl
  simp only [h1, h2]

/-- Witness for C7 at a concrete one-token span without embedding. -/
theorem spanEmbedding_all_null_zero_witness :
    getSpanEmbedding
        [{ i := 0, text := "x", lemma_ := "x", pos := "NOUN", dep := "nsubj",
           head := 0, emb := none }] = List.replicate 768 0 :=
  spanEmbedding_all_null_zero _ (by decide)

/-- C8: for a span of two NOUN tokens (weight 2 each) with embeddings
`[1,0]` and `[3,0]`, the weighted tier returns the weighted mean
`(2*[1,0] + 2*[3,0]) / 4 = [2,0]`. -/
theorem spanEmbedding_weighted_mean_example :
    getSpanEmbedding
        [{ i := 0, text := "cats", lemma_ := "cat", pos := "NOUN", dep := "nsubj",
           head := 1, emb := some [1, 0] },
         { i := 1, text := "dogs", lemma_ := "dog", pos := "NOUN", dep := "dobj",
           head := 1, emb := some [3, 0] }] = [2, 0] := by
  have h : getSpanEmbedding
      [{ i := 0, text := "cats", lemma_ := "cat", pos := "NOUN", dep := "nsubj",
         head := 1, emb := some [1, 0] },
       { i := 1, text := "dogs", lemma_ := "dog", pos := "NOUN", dep := "dobj",
         head := 1, emb := some [3, 0] }] =
      vscale (1 / ((0 : ℚ) + 2 + 2)) (vadd (vscale 2 [1, 0]) (vscale 2 [3, 0])) := rfl
  rw [h]
  norm_num [vscale, vadd]

/-! ## Claim theorems: the end-to-end example (C1) and the "we" rule (C4) -/

/-- C1 counterexample: in the end-to-end example the ccomp clause
anchored at "trigger" does NOT keep its own source text.  Its own
classification is NOMINAL with source text "the proposed tax reforms",
but after `extract_all` the inheritance pass has overwritten its
source text with the parent clause's "Senior economists" and set
`inherited = true`, because eligibility only checks the verb flags and
the head reference, never the clause's own source. -/
theorem trigger_clause_overwritten_cex :
    ((segment exDoc).map (fun c => (c.root, (extract exLex exDoc c).source_text))) =
        [("warned", some "Senior economists"),
         ("trigger", some "the proposed tax reforms")] ∧
    ((extractAll exLex exDoc (segment exDoc)).map
        (fun c => (c.root, c.source_text, c.inherited))) =
        [("warned", some "Senior economists", false),
         ("trigger", some "Senior economists", true)] ∧
    (some "the proposed tax reforms" : Option String) ≠ some "Senior economists" := by
  refine ⟨by decide, by decide, by decide⟩

/-- C1 amended: in the end-to-end example the ccomp clause anchored at
"trigger" is eligible for inheritance (it is neither an attribution
nor an epistemic verb and has head reference "warned"), and since the
parent clause's source text is non-null the pass overwrites its source
fields with the parent's: source text becomes "Senior economists",
`inherited = true`, and its source type stays NOMINAL only because the
parent's type is also NOMINAL. -/
theorem trigger_clause_inherits_parent_source :
    (extractAll exLex exDoc (segment exDoc)).map
        (fun c => (c.root, c.source_text, c.source_type, c.source_ner_label)) =
      [("warned", some "Senior economists", some "NOMINAL", (none : Option String)),
       ("trigger", some "Senior economists", some "NOMINAL", (none : Option String))] ∧
    (extractAll exLex exDoc (segment exDoc)).map
        (fun c => (c.is_attribution_verb, c.is_epistemic_verb, c.inherited)) =
      [(true, false, false), (false, false, true)] := by
  refine ⟨by decide, by decide⟩

/-- C4 counterexample: a depth-0 clause whose first nsubj/nsubjpass
child is "we" is NOT always classified JOURNALIST: in "We were told"
the subject "We" carries label nsubjpass, the journalist rule requires
label nsubj or expl, and classification yields PRONOMINAL with source
text "We". -/
theorem we_subject_journalist_cex :
    ((segment cxDoc).map (fun c =>
        (c.depth, (findNsubj cxDoc c.rootTok).map (fun s => (lowerStr s.text, s.dep)),
         (extract exLex cxDoc c).source_type, (extract exLex cxDoc c).source_text))) =
      [(0, some ("we", "nsubjpass"), some "PRONOMINAL", some "We")] ∧
    (some "PRONOMINAL" : Option String) ≠ some "JOURNALIST" := by
  refine ⟨by decide, by decide⟩

/-- C4 amended: for every clause at depth 0 whose anchor's nominal
subject has lowercase text "we" AND dependency label nsubj (as the
code additionally requires), per-clause classification assigns
source type JOURNALIST with null source text. -/
theorem we_subject_journalist (lx : Lexicons) (d : Doc) (c : Clause) (s : Token)
    (hs : findNsubj d c.rootTok = some s) (hdep : s.dep = "nsubj")
    (htext : lowerStr s.text = "we") (hdepth : c.depth = 0) :
    (extract lx d c).source_type = some SOURCE_JOURNALIST ∧
    (extract lx d c).source_text = none := by
  have hcond : lowerStr s.text ∈ JOURNALIST_PRONOUNS ∧
      (s.dep = "nsubj" ∨ s.dep = "expl") ∧ c.depth = 0 := by
    refine ⟨?_, Or.inl hdep, hdepth⟩
    rw [htext]
    decide
  simp only [extract, hs]
  rw [if_pos hcond]
  exact ⟨rfl, rfl⟩

/-- Witness for the amended C4 on the document "We slept .". -/
theorem we_subject_journalist_witness :
    (extract exLex smallDoc ((segment smallDoc).getD 0 default)).source_type
        = some SOURCE_JOURNALIST ∧
    (extract exLex smallDoc ((segment smallDoc).getD 0 default)).source_text = none :=
  we_subject_journalist exLex smallDoc ((segment smallDoc).getD 0 default)
    { i := 0, text := "We", lemma_ := "we", pos := "PRON", dep := "nsubj", head := 1 }
    (by decide) (by decide) (by decide) (by decide)

/-! ## The inheritance pass: frame lemmas and invariants (C5, C10) -/

/-- Each loop iteration either leaves the list unchanged or updates
exactly the entry it processes. -/
theorem inheritAt_shape (cs : List AClause) (j : Nat) :
    inheritAt cs j = cs ∨ ∃ x, inheritAt cs j = cs.set j x := by
  unfold inheritAt
  split
  · exact Or.inl rfl
  · split
    · split
      · split
        · exact Or.inr ⟨_, rfl⟩
        · exact Or.inr ⟨_, rfl⟩
      · exact Or.inr ⟨_, rfl⟩
    · exact Or.inr ⟨_, rfl⟩

/-- A loop iteration on index `j` does not touch the entry at `k ≠ j`. -/
theorem inheritAt_getElem_ne (cs : List AClause) (j k : Nat) (h : j ≠ k) :
    (inheritAt cs j)[k]? = cs[k]? := by
  rcases inheritAt_shape cs j with heq | ⟨x, heq⟩
  · rw [heq]
  · rw [heq, List.getElem?_set_ne h]

/-- Loop iterations preserve the list length. -/
theorem inheritAt_length (cs : List AClause) (j : Nat) :
    (inheritAt cs j).length = cs.length := by
  rcases inheritAt_shape cs j with heq | ⟨x, heq⟩
  · rw [heq]
  · rw [heq, List.length_set]

/-- Folding iterations over indices different from `k` does not touch
the entry at `k`. -/
theorem foldl_inheritAt_getElem_ne (js : List Nat) (k : Nat)
    (h : ∀ j ∈ js, j ≠ k) :
    ∀ cs : List AClause, (js.foldl inheritAt cs)[k]? = cs[k]? := by
  induction js with
  | nil => intro cs; rfl
  | cons j js ih =>
    intro cs
    rw [List.foldl_cons, ih (fun x hx => h x (List.mem_cons_of_mem j hx)),
      inheritAt_getElem_ne cs j k (h j (List.mem_cons_self j js))]

/-- The prefix of the loop leaves the entry at `k` untouched. -/
theorem stateAt_getElem (cs : List AClause) (k : Nat) :
    (stateAt cs k)[k]? = cs[k]? := by
  unfold stateAt
  exact foldl_inheritAt_getElem_ne (List.range k) k
    (fun j hj => Nat.ne_of_lt (List.mem_range.mp hj)) cs

/-- The prefix of the loop preserves the length. -/
theorem stateAt_length (cs : List AClause) (k : Nat) :
    (stateAt cs k).length = cs.length := by
  unfold stateAt
  induction List.range k generalizing cs with
  | nil => rfl
  | cons j js ih => rw [List.foldl_cons, ih, inheritAt_length]

/-- Decompose the full loop at index `k`: run the prefix, the step at
`k`, then the suffix. -/
theorem inheritSources_decomp (cs : List AClause) (k : Nat)
    (hlen : k < cs.length) :
    inheritSources cs =
      ((List.range (cs.length - (k+1))).map (fun x => (k+1) + x)).foldl
        inheritAt (inheritAt (stateAt cs k) k) := by
  unfold inheritSources stateAt
  rw [show cs.length = (k+1) + (cs.length - (k+1)) from (Nat.add_sub_cancel' hlen).symm]
  rw [List.range_add, List.foldl_append, List.range_succ, List.foldl_append]
  rw [Nat.add_sub_cancel_left]
  rfl

/-- C5: a clause whose lookup, at the moment the pass processes it,
finds no parent (no clause with matching anchor text, or a null head
reference) or finds a parent with null source text, ends the pass with
`inherited = false` and its own source_text, source_type and
source_ner_label exactly as per-clause classification produced them. -/
theorem inherit_unresolved_keeps_own (cs : List AClause) (k : Nat) (c : AClause)
    (hk : cs[k]? = some c)
    (hp : inheritParent (stateAt cs k) c = none ∨
      ∃ p, inheritParent (stateAt cs k) c = some p ∧ p.source_text = none) :
    (inheritSources cs)[k]? = some { c with inherited := false } := by
  have hlen : k < cs.length := by
    by_contra hcon
    rw [List.getElem?_eq_none (Nat.le_of_not_lt hcon)] at hk
    exact Option.noConfusion hk
  have hstate : (stateAt cs k)[k]? = some c := by
    rw [stateAt_getElem]; exact hk
  have hstep : inheritAt (stateAt cs k) k =
      (stateAt cs k).set k { c with inherited := false } := by
    unfold inheritAt
    simp only [hstate]
    by_cases he : inheritEligible c
    · rw [if_pos he]
      rcases hp with hnone | ⟨p, hp1, hp2⟩
      · rw [hnone]
      · rw [hp1]
        simp [hp2]
    · rw [if_neg he]
  rw [inheritSources_decomp cs k hlen, hstep]
  rw [foldl_inheritAt_getElem_ne _ k
    (by
      intro j hj
      rcases List.mem_map.mp hj with ⟨x, _, hx⟩
      omega)]
  exact List.getElem?_set_self (by rw [stateAt_length]; exact hlen)

/-- Witness clause record for C5. -/
def wACl : AClause :=
  { toks := [], text := "", root := "x",
    rootTok := default, rootDep := "ROOT", head := none, depth := 0,
    marker := none, source_text := none, source_type := none,
    source_ner_label := none, is_attribution_verb := false,
    is_epistemic_verb := false, inherited := true }

/-- Witness for C5 on a one-clause list whose head reference is null. -/
theorem inherit_unresolved_keeps_own_witness :
    (inheritSources [wACl])[0]? = some { wACl with inherited := false } :=
  inherit_unresolved_keeps_own [wACl] 0 wACl (by decide) (Or.inl (by decide))

/-- The attribution-record invariant of C10: the source text is
non-null exactly when the source type is NAMED_ENTITY, NOMINAL or
PRONOMINAL. -/
def SourceConsistent (c : AClause) : Prop :=
  c.source_text ≠ none ↔
    (c.source_type = some SOURCE_NAMED_ENTITY ∨
     c.source_type = some SOURCE_NOMINAL ∨
     c.source_type = some SOURCE_PRONOMINAL)

instance (c : AClause) : Decidable (SourceConsistent c) := by
  unfold SourceConsistent; infer_instance

/-- Per-clause classification always satisfies the invariant. -/
theorem extract_sourceConsistent (lx : Lexicons) (d : Doc) (c : Clause) :
    SourceConsistent (extract lx d c) := by
  unfold SourceConsistent extract
  dsimp only
  split
  · split
    · simp [SOURCE_JOURNALIST, SOURCE_NAMED_ENTITY, SOURCE_NOMINAL, SOURCE_PRONOMINAL]
    · split
      · simp [SOURCE_NAMED_ENTITY]
      · split
        · split <;> simp [SOURCE_NAMED_ENTITY, SOURCE_NOMINAL, SOURCE_PRONOMINAL]
        · split
          · simp [SOURCE_NAMED_ENTITY, SOURCE_NOMINAL, SOURCE_PRONOMINAL]
          · simp
  · split
    · simp [SOURCE_PASSIVE, SOURCE_NAMED_ENTITY, SOURCE_NOMINAL, SOURCE_PRONOMINAL]
    · simp [SOURCE_JOURNALIST, SOURCE_NAMED_ENTITY, SOURCE_NOMINAL, SOURCE_PRONOMINAL]

/-- A parent returned by the lookup is a member of the list. -/
theorem inheritParent_mem (cs : List AClause) (c p : AClause)
    (h : inheritParent cs c = some p) : p ∈ cs := by
  unfold inheritParent at h
  rcases hh : c.head with _ | s
  · rw [hh] at h; exact Option.noConfusion h
  · rw [hh] at h
    unfold lookupLast at h
    exact List.mem_reverse.mp (List.mem_of_find?_eq_some h)

/-- Each loop iteration preserves the invariant on every entry. -/
theorem inheritAt_sourceConsistent (cs : List AClause) (k : Nat)
    (h : ∀ x ∈ cs, SourceConsistent x) :
    ∀ x ∈ inheritAt cs k, SourceConsistent x := by
  intro x hx
  unfold inheritAt at hx
  revert hx
  split
  · exact fun hx => h x hx
  · rename_i c hc
    have hcmem : c ∈ cs := List.getElem?_mem hc
    split
    · split
      · rename_i p hp
        have hpmem : p ∈ cs := inheritParent_mem cs c p hp
        split
        · intro hx
          rcases List.mem_or_eq_of_mem_set hx with hmem | rfl
          · exact h x hmem
          · have := h p hpmem
            unfold SourceConsistent at this ⊢
            exact this
        · intro hx
          rcases List.mem_or_eq_of_mem_set hx with hmem | rfl
          · exact h x hmem
          · have := h c hcmem
            unfold SourceConsistent at this ⊢
            exact this
      · intro hx
        rcases List.mem_or_eq_of_mem_set hx with hmem | rfl
        · exact h x hmem
        · have := h c hcmem
          unfold SourceConsistent at this ⊢
          exact this
    · intro hx
      rcases List.mem_or_eq_of_mem_set hx with hmem | rfl
      · exact h x hmem
      · have := h c hcmem
        unfold SourceConsistent at this ⊢
        exact this

/-- Folding the loop preserves the invariant. -/
theorem foldl_inheritAt_sourceConsistent (js : List Nat) :
    ∀ cs : List AClause, (∀ x ∈ cs, SourceConsistent x) →
      ∀ x ∈ js.foldl inheritAt cs, SourceConsistent x := by
  induction js with
  | nil => exact fun cs h => h
  | cons j js ih =>
    intro cs h
    rw [List.foldl_cons]
    exact ih (inheritAt cs j) (inheritAt_sourceConsistent cs j h)

/-- C10: every record produced by per-clause classification satisfies
the invariant (source_text non-null iff source_type is NAMED_ENTITY,
NOMINAL or PRONOMINAL), and the inheritance pass preserves it: every
record returned by `extract_all` satisfies it as well, so JOURNALIST,
PASSIVE and unclassified clauses always carry a null source text. -/
theorem sourceText_iff_sourceType (lx : Lexicons) (d : Doc) (cs : List Clause) :
    (∀ c ∈ cs, SourceConsistent (extract lx d c)) ∧
    (∀ x ∈ extractAll lx d cs, SourceConsistent x) := by
  constructor
  · exact fun c _ => extract_sourceConsistent lx d c
  · intro x hx
    unfold extractAll inheritSources at hx
    refine foldl_inheritAt_sourceConsistent _ (cs.map (extract lx d)) ?_ x hx
    intro y hy
    rcases List.mem_map.mp hy with ⟨c, _, rfl⟩
    exact extract_sourceConsistent lx d c

/-- Witness for C10 on the end-to-end example document. -/
theorem sourceText_iff_sourceType_witness :
    SourceConsistent ((extractAll exLex exDoc (segment exDoc)).getD 0 default) :=
  (sourceText_iff_sourceType exLex exDoc (segment exDoc)).2 _ (by decide)

/-! ## The subtree walk: effect on the shared claimed state -/

/-- The effect of a walk on the shared state: claimed indices and the
accumulated token list are extended by the same list `T` of tokens, all
from the document, all previously unclaimed, with pairwise distinct
indices, and none of them an anchor other than the walk's own verb. -/
def Ext (d : Doc) (verb : Token) (st st' : List Nat × List Token) : Prop :=
  ∃ T : List Token,
    st'.1 = st.1 ++ T.map Token.i ∧
    st'.2 = st.2 ++ T ∧
    (∀ x ∈ T, x ∈ d.tokens) ∧
    (∀ x ∈ T, x.i ∉ st.1) ∧
    (T.map Token.i).Nodup ∧
    (∀ x ∈ T, x.i = verb.i ∨ isAnchorTok x = false)

theorem Ext_refl (d : Doc) (verb : Token) (st : List Nat × List Token) :
    Ext d verb st st :=
  ⟨[], by simp, by simp, by simp, by simp, by simp, by simp⟩

theorem Ext_trans {d : Doc} {verb : Token} {st1 st2 st3 : List Nat × List Token}
    (h1 : Ext d verb st1 st2) (h2 : Ext d verb st2 st3) : Ext d verb st1 st3 := by
  obtain ⟨T1, a1, b1, c1, f1, n1, g1⟩ := h1
  obtain ⟨T2, a2, b2, c2, f2, n2, g2⟩ := h2
  refine ⟨T1 ++ T2, ?_, ?_, ?_, ?_, ?_, ?_⟩
  · rw [a2, a1, List.map_append, List.append_assoc]
  · rw [b2, b1, List.append_assoc]
  · intro x hx
    rcases List.mem_append.mp hx with h | h
    exacts [c1 x h, c2 x h]
  · intro x hx
    rcases List.mem_append.mp hx with h | h
    · exact f1 x h
    · intro hmem
      exact f2 x h (a1 ▸ List.mem_append_left _ hmem)
  · rw [List.map_append, List.nodup_append]
    refine ⟨n1, n2, ?_⟩
    intro i hi1 hi2
    rcases List.mem_map.mp hi2 with ⟨x, hx, rfl⟩
    exact f2 x hx (a1 ▸ List.mem_append_right _ hi1)
  · intro x hx
    rcases List.mem_append.mp hx with h | h
    exacts [g1 x h, g2 x h]

/-- Children are document tokens. -/
theorem children_sub (d : Doc) (t : Token) : ∀ c ∈ children d t, c ∈ d.tokens :=
  fun c hc => (List.mem_filter.mp hc).1

/-- Folding walk steps accumulates walk effects. -/
theorem walkList_ext (d : Doc) (verb : Token)
    (f : Token → List Nat × List Token → List Nat × List Token)
    (hstep : ∀ t ∈ d.tokens, ∀ st, Ext d verb st (f t st)) :
    ∀ cs : List Token, (∀ c ∈ cs, c ∈ d.tokens) →
      ∀ st, Ext d verb st (cs.foldl (fun s c => f c s) st) := by
  intro cs
  induction cs with
  | nil => exact fun _ st => Ext_refl d verb st
  | cons c cs ih =>
    intro hcs st
    rw [List.foldl_cons]
    exact Ext_trans (hstep c (hcs c (List.mem_cons_self c cs)) st)
      (ih (fun x hx => hcs x (List.mem_cons_of_mem c hx)) (f c st))

/-- The walk only extends the shared state as described by `Ext`. -/
theorem walkAux_ext (d : Doc) (verb : Token) :
    ∀ (fuel : Nat) (t : Token), t ∈ d.tokens →
      ∀ st, Ext d verb st (walkAux d verb fuel t st) := by
  intro fuel
  induction fuel with
  | zero => exact fun t _ st => Ext_refl d verb st
  | succ fuel ih =>
    intro t ht st
    show Ext d verb st
      (if t.i ∈ st.1 then st
       else if t.i ≠ verb.i ∧ isAnchorTok t = true then st
       else (children d t).foldl (fun s c => walkAux d verb fuel c s)
         (st.1 ++ [t.i], st.2 ++ [t]))
    by_cases h1 : t.i ∈ st.1
    · rw [if_pos h1]; exact Ext_refl d verb st
    · rw [if_neg h1]
      by_cases h2 : t.i ≠ verb.i ∧ isAnchorTok t = true
      · rw [if_pos h2]; exact Ext_refl d verb st
      · rw [if_neg h2]
        have hfirst : Ext d verb st (st.1 ++ [t.i], st.2 ++ [t]) := by
          refine ⟨[t], by simp, by simp, by simp [ht], by simp [h1], by simp, ?_⟩
          intro x hx
          rw [List.mem_singleton] at hx
          subst hx
          by_cases hv : x.i = verb.i
          · exact Or.inl hv
          · right
            cases hA : isAnchorTok x
            · rfl
            · exact absurd ⟨hv, hA⟩ h2
        exact Ext_trans hfirst
          (walkList_ext d verb (walkAux d verb fuel) (fun u hu s => ih u hu s)
            (children d t) (children_sub d t) (st.1 ++ [t.i], st.2 ++ [t]))

/-- When the walk's own verb is unclaimed, the walk claims it: it
appears in the accumulated token list. -/
theorem walkAux_enter (d : Doc) (verb : Token) (hv : verb ∈ d.tokens)
    (fuel : Nat) (st : List Nat × List Token) (h1 : verb.i ∉ st.1) :
    verb ∈ (walkAux d verb (fuel + 1) verb st).2 := by
  show verb ∈
    (if verb.i ∈ st.1 then st
     else if verb.i ≠ verb.i ∧ isAnchorTok verb = true then st
     else (children d verb).foldl (fun s c => walkAux d verb fuel c s)
       (st.1 ++ [verb.i], st.2 ++ [verb])).2
  rw [if_neg h1, if_neg (by simp)]
  obtain ⟨T, hT1, hT2, _⟩ :=
    walkList_ext d verb (walkAux d verb fuel) (fun u hu s => walkAux_ext d verb fuel u hu s)
      (children d verb) (children_sub d verb) (st.1 ++ [verb.i], st.2 ++ [verb])
  rw [hT2]
  exact List.mem_append_left _ (List.mem_append_right _ (List.mem_singleton_self verb))

/-! ## Segment-level invariants: disjointness (C2) -/

/-- The processing order is a permutation of the anchor list. -/
theorem rootsByDepth_perm (d : Doc) (fuel : Nat) :
    (rootsByDepth d fuel).Perm (clauseRoots d) := by
  unfold rootsByDepth
  have h1 := (List.perm_insertionSort (fun a b : Nat × Token => b.1 ≤ a.1)
    ((clauseRoots d).map (fun t => (depthD d fuel t.i, t)))).map Prod.snd
  rw [List.map_map] at h1
  simpa [Function.comp_def] using h1

/-- Processed anchors are document tokens. -/
theorem rootsByDepth_sub (d : Doc) (fuel : Nat) :
    ∀ v ∈ rootsByDepth d fuel, v ∈ d.tokens := by
  intro v hv
  have := (rootsByDepth_perm d fuel).mem_iff.mp hv
  exact (List.mem_filter.mp this).1

/-- The final sort of `segment` permutes the emitted clauses. -/
theorem segmentF_perm_emitted (d : Doc) (fuel : Nat) :
    (segmentF d fuel).Perm (emittedClauses d fuel) := by
  unfold segmentF
  have h1 := (List.perm_insertionSort (fun a b : Nat × Clause => a.1 ≤ b.1)
    ((emittedClauses d fuel).map (fun c => (clauseStart c, c)))).map Prod.snd
  rw [List.map_map] at h1
  simpa [Function.comp_def] using h1

/-- Disjointness of two clauses' token index sets. -/
def ClauseDisj (c1 c2 : Clause) : Prop :=
  ∀ i ∈ c1.toks.map Token.i, i ∉ c2.toks.map Token.i

theorem ClauseDisj_symm : ∀ {a b : Clause}, ClauseDisj a b → ClauseDisj b a :=
  fun h i hbi hai => h i hai hbi

/-- The loop invariant of `segment`: the claimed list has no
duplicates, every emitted clause's tokens are document tokens with
claimed indices, and emitted clauses are pairwise disjoint. -/
def SegInv (d : Doc) (st : List Nat × List Clause) : Prop :=
  st.1.Nodup ∧
  (∀ c ∈ st.2, ∀ x ∈ c.toks, x ∈ d.tokens ∧ x.i ∈ st.1) ∧
  List.Pairwise ClauseDisj st.2

/-- Each loop iteration of `segment` preserves the invariant. -/
theorem segStep_inv (d : Doc) (fuel : Nat) (verb : Token) (st : List Nat × List Clause)
    (hv : verb ∈ d.tokens) (h : SegInv d st) : SegInv d (segStep d fuel st verb) := by
  obtain ⟨hnd, hmem, hpw⟩ := h
  obtain ⟨T, hT1, hT2, hTtok, hTfresh, hTnd, _⟩ :=
    walkAux_ext d verb fuel verb hv (st.1, [])
  have hT2' : (walkAux d verb fuel verb (st.1, [])).2 = T := by
    simpa using hT2
  have hndnew : (st.1 ++ T.map Token.i).Nodup := by
    rw [List.nodup_append]
    refine ⟨hnd, hTnd, ?_⟩
    intro a ha hamem
    rcases List.mem_map.mp hamem with ⟨x, hx, rfl⟩
    exact hTfresh x hx ha
  unfold segStep getClauseTokens
  dsimp only
  rw [hT2']
  have hsortmem : ∀ x, x ∈ T.insertionSort (fun a b => a.i ≤ b.i) ↔ x ∈ T :=
    fun x => (List.perm_insertionSort (fun a b : Token => a.i ≤ b.i) T).mem_iff
  split
  · rename_i hnil
    refine ⟨by rw [hT1]; exact hndnew, ?_, hpw⟩
    intro c hc x hx
    obtain ⟨hx1, hx2⟩ := hmem c hc x hx
    exact ⟨hx1, by rw [hT1]; exact List.mem_append_left _ hx2⟩
  · rename_i t0 ts hcons
    have htoks : ∀ x, x ∈ (mkClause d fuel verb (t0 :: ts)).toks ↔ x ∈ T := by
      intro x
      show x ∈ t0 :: ts ↔ x ∈ T
      rw [← hcons]
      exact hsortmem x
    constructor
    · rw [hT1]; exact hndnew
    constructor
    · intro c hc x hx
      rcases List.mem_append.mp hc with hcold | hcnew
      · obtain ⟨hx1, hx2⟩ := hmem c hcold x hx
        exact ⟨hx1, by rw [hT1]; exact List.mem_append_left _ hx2⟩
      · rw [List.mem_singleton] at hcnew
        subst hcnew
        have hxT : x ∈ T := (htoks x).mp hx
        refine ⟨hTtok x hxT, ?_⟩
        rw [hT1]
        exact List.mem_append_right _ (List.mem_map_of_mem Token.i hxT)
    · rw [List.pairwise_append]
      refine ⟨hpw, List.pairwise_singleton _ _, ?_⟩
      intro a ha b hb
      rw [List.mem_singleton] at hb
      subst hb
      intro i hia hib
      rcases List.mem_map.mp hia with ⟨x, hx, rfl⟩
      rcases List.mem_map.mp hib with ⟨y, hy, hyx⟩
      have hyT : y ∈ T := (htoks y).mp hy
      have : x.i ∈ st.1 := (hmem a ha x hx).2
      exact hTfresh y hyT (hyx ▸ this)

/-- The whole loop of `segment` preserves the invariant. -/
theorem segFold_inv (d : Doc) (fuel : Nat) :
    ∀ vs : List Token, (∀ v ∈ vs, v ∈ d.tokens) →
      ∀ st, SegInv d st → SegInv d (vs.foldl (segStep d fuel) st) := by
  intro vs
  induction vs with
  | nil => exact fun _ _ h => h
  | cons v vs ih =>
    intro hvs st h
    rw [List.foldl_cons]
    exact ih (fun x hx => hvs x (List.mem_cons_of_mem v hx))
      _ (segStep_inv d fuel v st (hvs v (List.mem_cons_self v vs)) h)

/-- C2: on every well-formed acyclic document, the clause token sets
returned by `segment` are pairwise disjoint and each is a subset of
the document's tokens: no token index appears in two clauses. -/
theorem clause_tokens_disjoint (d : Doc) (hwf : WF d) (hac : Acyclic d) :
    (∀ c ∈ segment d, ∀ x ∈ c.toks, x ∈ d.tokens) ∧
    List.Pairwise ClauseDisj (segment d) := by
  have hbase : SegInv d (([], []) : List Nat × List Clause) :=
    ⟨List.nodup_nil, by simp, List.Pairwise.nil⟩
  have hinv : SegInv d ((rootsByDepth d (d.tokens.length + 1)).foldl
      (segStep d (d.tokens.length + 1)) ([], [])) :=
    segFold_inv d _ _ (rootsByDepth_sub d _) _ hbase
  have hperm : (segment d).Perm (emittedClauses d (d.tokens.length + 1)) :=
    segmentF_perm_emitted d _
  constructor
  · intro c hc x hx
    exact (hinv.2.1 c (hperm.mem_iff.mp hc) x hx).1
  · exact (hperm.pairwise_iff (fun h => ClauseDisj_symm h)).mpr hinv.2.2

/-- Witness for C2 on the document "We slept .". -/
theorem clause_tokens_disjoint_witness :
    List.Pairwise ClauseDisj (segment smallDoc) :=
  (clause_tokens_disjoint smallDoc (by decide) (by decide)).2

/-! ## One clause per anchor (C9) -/

/-- In a well-formed document every token's index is in range. -/
theorem wf_i_lt (d : Doc) (hwf : WF d) : ∀ t ∈ d.tokens, t.i < d.tokens.length := by
  intro t ht
  have : t.i ∈ d.tokens.map Token.i := List.mem_map_of_mem Token.i ht
  rw [hwf.1] at this
  exact List.mem_range.mp this

/-- In a well-formed document tokens are determined by their index. -/
theorem wf_inj (d : Doc) (hwf : WF d) :
    ∀ x ∈ d.tokens, ∀ y ∈ d.tokens, x.i = y.i → x = y := by
  have hnd : (d.tokens.map Token.i).Nodup := by
    rw [hwf.1]; exact List.nodup_range _
  exact fun x hx y hy h => List.inj_on_of_nodup_map hnd hx hy h

/-- Members of the anchor list are anchors. -/
theorem clauseRoots_anchor (d : Doc) : ∀ v ∈ clauseRoots d, isAnchorTok v = true :=
  fun v hv => (List.mem_filter.mp hv).2

/-- Loop invariant for C9: every anchor whose index is claimed has
already been processed (`pre`), each processed anchor has emitted
exactly one clause (in order), and every emitted clause contains its
own anchor. -/
def SegInvAnchor (d : Doc) (pre : List Token) (st : List Nat × List Clause) : Prop :=
  (∀ x ∈ d.tokens, isAnchorTok x = true → x.i ∈ st.1 → x ∈ pre) ∧
  st.2.map Clause.rootTok = pre ∧
  (∀ c ∈ st.2, c.rootTok ∈ c.toks)

/-- Processing the anchors preserves the C9-invariant, emitting one
clause per anchor. -/
theorem segFold_anchor (d : Doc) (hwf : WF d) (m : Nat) :
    ∀ vs : List Token, (∀ v ∈ vs, v ∈ clauseRoots d) →
      ∀ pre st, ((pre ++ vs).map Token.i).Nodup → SegInvAnchor d pre st →
        SegInvAnchor d (pre ++ vs) (vs.foldl (segStep d (m+1)) st) := by
  intro vs
  induction vs with
  | nil => intro _ pre st _ h; simpa using h
  | cons v vs ih =>
    intro hvs pre st hnd h
    obtain ⟨hclaim, hroots, hown⟩ := h
    have hvroot : v ∈ clauseRoots d := hvs v (List.mem_cons_self v vs)
    have hvtok : v ∈ d.tokens := (List.mem_filter.mp hvroot).1
    have hvanch : isAnchorTok v = true := clauseRoots_anchor d v hvroot
    -- v has not been claimed yet
    have hdisj : ∀ a ∈ pre.map Token.i, a ∉ (v :: vs).map Token.i := by
      have := hnd
      rw [List.map_append, List.nodup_append] at this
      exact this.2.2
    have hvfresh : v.i ∉ st.1 := by
      intro hcon
      have hvpre : v ∈ pre := hclaim v hvtok hvanch hcon
      exact hdisj v.i (List.mem_map_of_mem Token.i hvpre)
        (List.mem_map_of_mem Token.i (List.mem_cons_self v vs))
    -- the walk claims v
    obtain ⟨T, hT1, hT2, hTtok, hTfresh, hTnd, hTanch⟩ :=
      walkAux_ext d v (m+1) v hvtok (st.1, [])
    have hT2' : (walkAux d v (m+1) v (st.1, [])).2 = T := by simpa using hT2
    have hvT : v ∈ T := by
      have := walkAux_enter d v hvtok m (st.1, []) hvfresh
      rw [hT2'] at this
      exact this
    have hsortmem : ∀ x, x ∈ T.insertionSort (fun a b => a.i ≤ b.i) ↔ x ∈ T :=
      fun x => (List.perm_insertionSort (fun a b : Token => a.i ≤ b.i) T).mem_iff
    -- the emitted clause
    have hstep : SegInvAnchor d (pre ++ [v]) (segStep d (m+1) st v) := by
      unfold segStep getClauseTokens
      dsimp only
      rw [hT2']
      cases hcons : T.insertionSort (fun a b => a.i ≤ b.i) with
      | nil =>
        exfalso
        have := (hsortmem v).mpr hvT
        rw [hcons] at this
        exact List.not_mem_nil v this
      | cons t0 ts =>
        have htoks : ∀ x, x ∈ (mkClause d (m+1) v (t0 :: ts)).toks ↔ x ∈ T := by
          intro x
          show x ∈ t0 :: ts ↔ x ∈ T
          rw [← hcons]
          exact hsortmem x
        refine ⟨?_, ?_, ?_⟩
        · intro x hxtok hxanch hxcl
          rw [hT1] at hxcl
          rcases List.mem_append.mp hxcl with hl | hr
          · exact List.mem_append_left _ (hclaim x hxtok hxanch hl)
          · rcases List.mem_map.mp hr with ⟨y, hy, hyi⟩
            have hyx : y = x :=
              wf_inj d hwf y (hTtok y hy) x hxtok hyi
            subst hyx
            rcases hTanch y hy with hvi | hfalse
            · have : y = v := wf_inj d hwf y (hTtok y hy) v hvtok hvi
              subst this
              exact List.mem_append_right _ (List.mem_singleton_self y)
            · rw [hxanch] at hfalse
              exact absurd hfalse (by simp)
        · show (st.2 ++ [mkClause d (m+1) v (t0 :: ts)]).map Clause.rootTok = pre ++ [v]
          rw [List.map_append, hroots]
          rfl
        · intro c hc
          rcases List.mem_append.mp hc with hcold | hcnew
          · exact hown c hcold
          · rw [List.mem_singleton] at hcnew
            subst hcnew
            show (mkClause d (m+1) v (t0 :: ts)).rootTok ∈ t0 :: ts
            have : v ∈ t0 :: ts := by
              rw [← hcons]
              exact (hsortmem v).mpr hvT
            exact this
    have hassoc : pre ++ v :: vs = (pre ++ [v]) ++ vs := by
      rw [List.append_assoc]; rfl
    rw [List.foldl_cons, hassoc]
    refine ih (fun x hx => hvs x (List.mem_cons_of_mem v hx)) (pre ++ [v]) _ ?_ hstep
    rw [← hassoc]
    exact hnd

/-- C9: on every well-formed acyclic document the drop-empty branch of
`segment` is never taken: the emitted clause anchors are exactly the
document's anchors (one clause per anchor, up to the final reordering),
and every emitted clause's token set contains its own anchor. -/
theorem one_clause_per_anchor (d : Doc) (hwf : WF d) (hac : Acyclic d) :
    ((segment d).map Clause.rootTok).Perm (clauseRoots d) ∧
    ∀ c ∈ segment d, c.rootTok ∈ c.toks := by
  have hbase : SegInvAnchor d [] (([], []) : List Nat × List Clause) :=
    ⟨by simp, rfl, by simp⟩
  have hnd : (([] ++ rootsByDepth d (d.tokens.length + 1)).map Token.i).Nodup := by
    have h1 : ((clauseRoots d).map Token.i).Nodup := by
      have hsub : List.Sublist ((clauseRoots d).map Token.i) (d.tokens.map Token.i) :=
        (List.filter_sublist d.tokens).map Token.i
      exact hsub.nodup (by rw [hwf.1]; exact List.nodup_range _)
    have h2 := ((rootsByDepth_perm d (d.tokens.length + 1)).map Token.i).nodup_iff.mpr h1
    simpa using h2
  have hsub : ∀ v ∈ rootsByDepth d (d.tokens.length + 1), v ∈ clauseRoots d :=
    fun v hv => (rootsByDepth_perm d _).mem_iff.mp hv
  have hfold := segFold_anchor d hwf d.tokens.length
    (rootsByDepth d (d.tokens.length + 1)) hsub [] ([], []) hnd hbase
  obtain ⟨_, hroots, hown⟩ := hfold
  have hperm : (segment d).Perm (emittedClauses d (d.tokens.length + 1)) :=
    segmentF_perm_emitted d _
  constructor
  · have h1 : ((segment d).map Clause.rootTok).Perm
        ((emittedClauses d (d.tokens.length + 1)).map Clause.rootTok) := hperm.map _
    have h2 : (emittedClauses d (d.tokens.length + 1)).map Clause.rootTok =
        rootsByDepth d (d.tokens.length + 1) := by simpa using hroots
    rw [h2] at h1
    exact h1.trans (rootsByDepth_perm d _)
  · intro c hc
    exact hown c (hperm.mem_iff.mp hc)

/-- Witness for C9 on the document "We slept .". -/
theorem one_clause_per_anchor_witness :
    ((segment smallDoc).map Clause.rootTok).Perm (clauseRoots smallDoc) :=
  (one_clause_per_anchor smallDoc (by decide) (by decide)).1

/-! ## Depth of a clause (C3) -/

/-- The head-chain loop computes exactly the number of ancestors
(anchor included, sentence root excluded) whose dependency label is in
the anchor-label set. -/
theorem computeDepth_spec (d : Doc) :
    ∀ k i dep0 f, reachesRoot d k i = true → k < f →
      computeDepthAux d f i dep0 =
        some (dep0 + ((ancestorsToRoot d k i).filter
          (fun j => decide (depOf d j ∈ CLAUSE_DEPS))).length) := by
  intro k
  induction k with
  | zero =>
    intro i dep0 f hr hf
    have hroot : headOf d i = i := by
      simpa [reachesRoot] using hr
    obtain ⟨g, rfl⟩ : ∃ g, f = g + 1 := ⟨f - 1, by omega⟩
    show (if headOf d i = i then some dep0
      else computeDepthAux d g (headOf d i)
        (if depOf d i ∈ CLAUSE_DEPS then dep0 + 1 else dep0)) = _
    rw [if_pos hroot]
    show some dep0 = some (dep0 + (List.filter _ []).length)
    simp
  | succ k ih =>
    intro i dep0 f hr hf
    obtain ⟨g, rfl⟩ : ∃ g, f = g + 1 := ⟨f - 1, by omega⟩
    by_cases hroot : headOf d i = i
    · show (if headOf d i = i then some dep0
        else computeDepthAux d g (headOf d i)
          (if depOf d i ∈ CLAUSE_DEPS then dep0 + 1 else dep0)) = _
      rw [if_pos hroot]
      have hanc : ancestorsToRoot d (k+1) i = [] := by
        show (if headOf d i = i then []
          else i :: ancestorsToRoot d k (headOf d i)) = []
        rw [if_pos hroot]
      rw [hanc]
      simp
    · have hr' : reachesRoot d k (headOf d i) = true := by
        have hbeq : (headOf d i == i) = false := by
          simpa using hroot
        simpa [reachesRoot, hbeq] using hr
      show (if headOf d i = i then some dep0
        else computeDepthAux d g (headOf d i)
          (if depOf d i ∈ CLAUSE_DEPS then dep0 + 1 else dep0)) = _
      rw [if_neg hroot]
      rw [ih (headOf d i) _ g hr' (by omega)]
      have hanc : ancestorsToRoot d (k+1) i = i :: ancestorsToRoot d k (headOf d i) := by
        show (if headOf d i = i then []
          else i :: ancestorsToRoot d k (headOf d i)) = _
        rw [if_neg hroot]
      rw [hanc, List.filter_cons]
      by_cases hdep : depOf d i ∈ CLAUSE_DEPS
      · rw [if_pos hdep, if_pos (by simp [hdep])]
        simp only [List.length_cons, Option.some.injEq]
        omega
      · rw [if_neg hdep, if_neg (by simp [hdep])]

/-- Every emitted clause satisfies any property enjoyed by all records
`mkClause` can build from a document anchor. -/
theorem segFold_prop (d : Doc) (fuel : Nat) (P : Clause → Prop)
    (hP : ∀ verb toksS, verb ∈ d.tokens → P (mkClause d fuel verb toksS)) :
    ∀ vs : List Token, (∀ v ∈ vs, v ∈ d.tokens) →
      ∀ st : List Nat × List Clause, (∀ c ∈ st.2, P c) →
        ∀ c ∈ (vs.foldl (segStep d fuel) st).2, P c := by
  intro vs
  induction vs with
  | nil => exact fun _ st h => h
  | cons v vs ih =>
    intro hvs st hst
    rw [List.foldl_cons]
    refine ih (fun x hx => hvs x (List.mem_cons_of_mem v hx)) _ ?_
    intro c hc
    unfold segStep at hc
    dsimp only at hc
    revert hc
    split
    · exact fun hc => hst c hc
    · intro hc
      rcases List.mem_append.mp hc with h | h
      · exact hst c h
      · rw [List.mem_singleton] at h
        subst h
        exact hP v _ (hvs v (List.mem_cons_self v vs))

/-- C3: on every well-formed acyclic document, each clause's depth
equals the number of ancestors of its anchor — the anchor itself
included, reached by following head links up to the sentence root —
whose dependency label lies in the anchor-label set. -/
theorem clause_depth_counts_ancestors (d : Doc) (hwf : WF d) (hac : Acyclic d) :
    ∀ c ∈ segment d, c.depth =
      ((ancestorsToRoot d d.tokens.length c.rootTok.i).filter
        (fun j => decide (depOf d j ∈ CLAUSE_DEPS))).length := by
  intro c hc
  have hperm := segmentF_perm_emitted d (d.tokens.length + 1)
  have hmem := hperm.mem_iff.mp hc
  have hfold := segFold_prop d (d.tokens.length + 1)
    (fun c => c.depth = depthD d (d.tokens.length + 1) c.rootTok.i ∧ c.rootTok ∈ d.tokens)
    (fun verb toksS hv => ⟨rfl, hv⟩)
    (rootsByDepth d (d.tokens.length + 1)) (rootsByDepth_sub d _)
    ([], []) (by simp)
  obtain ⟨hdep, htok⟩ := hfold c hmem
  have hi : c.rootTok.i < d.tokens.length := wf_i_lt d hwf c.rootTok htok
  have hval := computeDepth_spec d d.tokens.length c.rootTok.i 0
    (d.tokens.length + 1) (hac c.rootTok.i hi) (by omega)
  rw [hdep]
  unfold depthD
  rw [hval]
  simp

/-- Witness for C3 on the document "We slept .". -/
theorem clause_depth_counts_ancestors_witness :
    ((segment smallDoc).getD 0 default).depth =
      ((ancestorsToRoot smallDoc smallDoc.tokens.length
        ((segment smallDoc).getD 0 default).rootTok.i).filter
        (fun j => decide (depOf smallDoc j ∈ CLAUSE_DEPS))).length :=
  clause_depth_counts_ancestors smallDoc (by decide) (by decide) _ (by decide)

/-! ## Termination of `segment` (C6): fuel adequacy -/

/-- Number of document token indices not yet claimed. -/
def unclaimedCount (d : Doc) (claimed : List Nat) : Nat :=
  ((List.range d.tokens.length).filter (fun i => decide (i ∉ claimed))).length

theorem filter_length_mono {α : Type} (p q : α → Bool)
    (h : ∀ a, q a = true → p a = true) :
    ∀ l : List α, (l.filter q).length ≤ (l.filter p).length := by
  intro l
  induction l with
  | nil => simp
  | cons b t ih =>
    rw [List.filter_cons, List.filter_cons]
    by_cases hqb : q b = true
    · rw [if_pos hqb, if_pos (h b hqb)]
      simpa using ih
    · rw [if_neg hqb]
      by_cases hpb : p b = true
      · rw [if_pos hpb]
        exact Nat.le_succ_of_le ih
      · rw [if_neg hpb]
        exact ih

theorem filter_length_strict {α : Type} (p q : α → Bool)
    (h : ∀ b, q b = true → p b = true)
    (a : α) (hpa : p a = true) (hqa : q a = false) :
    ∀ l : List α, a ∈ l → (l.filter q).length < (l.filter p).length := by
  intro l
  induction l with
  | nil => intro hm; exact absurd hm (List.not_mem_nil a)
  | cons b t ih =>
    intro hmem
    rw [List.filter_cons, List.filter_cons]
    rcases List.mem_cons.mp hmem with rfl | hmem2
    · rw [if_pos hpa, if_neg (by simp [hqa])]
      exact Nat.lt_succ_of_le (filter_length_mono p q h t)
    · by_cases hqb : q b = true
      · rw [if_pos hqb, if_pos (h b hqb)]
        simpa using ih hmem2
      · rw [if_neg hqb]
        by_cases hpb : p b = true
        · rw [if_pos hpb]
          exact Nat.lt_succ_of_lt (ih hmem2)
        · rw [if_neg hpb]
          exact ih hmem2

theorem unclaimedCount_le (d : Doc) (claimed : List Nat) :
    unclaimedCount d claimed ≤ d.tokens.length := by
  unfold unclaimedCount
  have h1 := List.length_filter_le (fun i => decide (i ∉ claimed))
    (List.range d.tokens.length)
  simpa using h1

theorem unclaimedCount_append_le (d : Doc) (claimed extra : List Nat) :
    unclaimedCount d (claimed ++ extra) ≤ unclaimedCount d claimed := by
  apply filter_length_mono
  intro a ha
  have h1 : a ∉ claimed ++ extra := of_decide_eq_true ha
  exact decide_eq_true (fun hc => h1 (List.mem_append_left _ hc))

theorem unclaimedCount_snoc_lt (d : Doc) (claimed : List Nat) (j : Nat)
    (hj : j < d.tokens.length) (hnotin : j ∉ claimed) :
    unclaimedCount d (claimed ++ [j]) < unclaimedCount d claimed := by
  apply filter_length_strict _ _ _ j (decide_eq_true hnotin)
    (decide_eq_false (fun hn =>
      hn (List.mem_append_right _ (List.mem_singleton_self j))))
    (List.range d.tokens.length) (List.mem_range.mpr hj)
  intro b hb
  have h1 : b ∉ claimed ++ [j] := of_decide_eq_true hb
  exact decide_eq_true (fun hc => h1 (List.mem_append_left _ hc))

/-- Fuel does not matter for a fold of walks, once every fuel exceeds
the number of unclaimed indices. -/
theorem walkList_fuel_eq (d : Doc) (verb : Token) (N : Nat)
    (ih : ∀ st : List Nat × List Token, unclaimedCount d st.1 ≤ N →
      ∀ t ∈ d.tokens, ∀ f1 f2 : Nat, unclaimedCount d st.1 < f1 →
        unclaimedCount d st.1 < f2 →
        walkAux d verb f1 t st = walkAux d verb f2 t st)
    (a b : Nat) :
    ∀ cs : List Token, (∀ c ∈ cs, c ∈ d.tokens) →
      ∀ s : List Nat × List Token, unclaimedCount d s.1 ≤ N →
        unclaimedCount d s.1 < a → unclaimedCount d s.1 < b →
        cs.foldl (fun x c => walkAux d verb a c x) s =
          cs.foldl (fun x c => walkAux d verb b c x) s := by
  intro cs
  induction cs with
  | nil => intros; rfl
  | cons c cs ihl =>
    intro hcs s hsN hsa hsb
    rw [List.foldl_cons, List.foldl_cons]
    have hstep := ih s hsN c (hcs c (List.mem_cons_self c cs)) a b hsa hsb
    rw [hstep]
    obtain ⟨T, hT1, _⟩ := walkAux_ext d verb b c (hcs c (List.mem_cons_self c cs)) s
    have hmono : unclaimedCount d (walkAux d verb b c s).1 ≤ unclaimedCount d s.1 := by
      rw [hT1]
      exact unclaimedCount_append_le d s.1 _
    exact ihl (fun x hx => hcs x (List.mem_cons_of_mem c hx)) _
      (le_trans hmono hsN) (lt_of_le_of_lt hmono hsa) (lt_of_le_of_lt hmono hsb)

/-- The recursive subtree walk is total: its result does not depend on
the fuel once the fuel exceeds the number of unclaimed indices. -/
theorem walkAux_fuel_eq (d : Doc) (verb : Token) (hwf : WF d) :
    ∀ N : Nat, ∀ st : List Nat × List Token, unclaimedCount d st.1 ≤ N →
      ∀ t ∈ d.tokens, ∀ f1 f2 : Nat, unclaimedCount d st.1 < f1 →
        unclaimedCount d st.1 < f2 →
        walkAux d verb f1 t st = walkAux d verb f2 t st := by
  intro N
  induction N with
  | zero =>
    intro st hst t ht f1 f2 h1 h2
    obtain ⟨a, rfl⟩ : ∃ a, f1 = a + 1 := ⟨f1 - 1, by omega⟩
    obtain ⟨b, rfl⟩ : ∃ b, f2 = b + 1 := ⟨f2 - 1, by omega⟩
    have hin : t.i ∈ st.1 := by
      by_contra hcon
      have hmem : t.i ∈ (List.range d.tokens.length).filter
          (fun i => decide (i ∉ st.1)) :=
        List.mem_filter.mpr ⟨List.mem_range.mpr (wf_i_lt d hwf t ht),
          decide_eq_true hcon⟩
      have hne := List.ne_nil_of_mem hmem
      have hpos : 0 < unclaimedCount d st.1 := List.length_pos.mpr hne
      omega
    show (if t.i ∈ st.1 then st
        else if t.i ≠ verb.i ∧ isAnchorTok t = true then st
        else (children d t).foldl (fun s c => walkAux d verb a c s)
          (st.1 ++ [t.i], st.2 ++ [t])) =
      (if t.i ∈ st.1 then st
        else if t.i ≠ verb.i ∧ isAnchorTok t = true then st
        else (children d t).foldl (fun s c => walkAux d verb b c s)
          (st.1 ++ [t.i], st.2 ++ [t]))
    rw [if_pos hin, if_pos hin]
  | succ N ih =>
    intro st hst t ht f1 f2 h1 h2
    obtain ⟨a, rfl⟩ : ∃ a, f1 = a + 1 := ⟨f1 - 1, by omega⟩
    obtain ⟨b, rfl⟩ : ∃ b, f2 = b + 1 := ⟨f2 - 1, by omega⟩
    show (if t.i ∈ st.1 then st
        else if t.i ≠ verb.i ∧ isAnchorTok t = true then st
        else (children d t).foldl (fun s c => walkAux d verb a c s)
          (st.1 ++ [t.i], st.2 ++ [t])) =
      (if t.i ∈ st.1 then st
        else if t.i ≠ verb.i ∧ isAnchorTok t = true then st
        else (children d t).foldl (fun s c => walkAux d verb b c s)
          (st.1 ++ [t.i], st.2 ++ [t]))
    by_cases hc1 : t.i ∈ st.1
    · rw [if_pos hc1, if_pos hc1]
    rw [if_neg hc1, if_neg hc1]
    by_cases hc2 : t.i ≠ verb.i ∧ isAnchorTok t = true
    · rw [if_pos hc2, if_pos hc2]
    rw [if_neg hc2, if_neg hc2]
    have hdec : unclaimedCount d (st.1 ++ [t.i]) < unclaimedCount d st.1 :=
      unclaimedCount_snoc_lt d st.1 t.i (wf_i_lt d hwf t ht) hc1
    refine walkList_fuel_eq d verb N ih a b (children d t) (children_sub d t)
      (st.1 ++ [t.i], st.2 ++ [t]) ?_ ?_ ?_
    · show unclaimedCount d (st.1 ++ [t.i]) ≤ N
      omega
    · show unclaimedCount d (st.1 ++ [t.i]) < a
      omega
    · show unclaimedCount d (st.1 ++ [t.i]) < b
      omega

/-- The depth loop's value is fuel-independent past the bound. -/
theorem depthD_stable (d : Doc) (hac : Acyclic d) (i : Nat)
    (hi : i < d.tokens.length) (f : Nat) (hf : d.tokens.length < f) :
    depthD d f i = depthD d (d.tokens.length + 1) i := by
  unfold depthD
  rw [computeDepth_spec d d.tokens.length i 0 f (hac i hi) hf,
      computeDepth_spec d d.tokens.length i 0 (d.tokens.length + 1) (hac i hi)
        (by omega)]

/-- A loop iteration of `segment` is fuel-independent past the bound. -/
theorem segStep_fuel_eq (d : Doc) (hwf : WF d) (hac : Acyclic d)
    (f : Nat) (hf : d.tokens.length + 1 ≤ f)
    (st : List Nat × List Clause) (v : Token) (hv : v ∈ d.tokens) :
    segStep d f st v = segStep d (d.tokens.length + 1) st v := by
  have hwalk : walkAux d v f v (st.1, []) =
      walkAux d v (d.tokens.length + 1) v (st.1, []) := by
    have hle := unclaimedCount_le d st.1
    have h1 : unclaimedCount d st.1 < f := by omega
    have h2 : unclaimedCount d st.1 < d.tokens.length + 1 := by omega
    exact walkAux_fuel_eq d v hwf d.tokens.length (st.1, []) hle v hv f
      (d.tokens.length + 1) h1 h2
  have hmk : ∀ toksS, mkClause d f v toksS =
      mkClause d (d.tokens.length + 1) v toksS := by
    intro toksS
    unfold mkClause
    rw [depthD_stable d hac v.i (wf_i_lt d hwf v hv) f (by omega)]
  unfold segStep getClauseTokens
  dsimp only
  rw [hwalk]
  simp only [hmk]

/-- The whole loop of `segment` is fuel-independent past the bound. -/
theorem segFold_fuel_eq (d : Doc) (hwf : WF d) (hac : Acyclic d)
    (f : Nat) (hf : d.tokens.length + 1 ≤ f) :
    ∀ vs : List Token, (∀ v ∈ vs, v ∈ d.tokens) →
      ∀ st, vs.foldl (segStep d f) st =
        vs.foldl (segStep d (d.tokens.length + 1)) st := by
  intro vs
  induction vs with
  | nil => intros; rfl
  | cons v vs ih =>
    intro hvs st
    rw [List.foldl_cons, List.foldl_cons,
      segStep_fuel_eq d hwf hac f hf st v (hvs v (List.mem_cons_self v vs))]
    exact ih (fun x hx => hvs x (List.mem_cons_of_mem v hx)) _

/-- The processing order is fuel-independent past the bound. -/
theorem rootsByDepth_fuel_eq (d : Doc) (hwf : WF d) (hac : Acyclic d)
    (f : Nat) (hf : d.tokens.length + 1 ≤ f) :
    rootsByDepth d f = rootsByDepth d (d.tokens.length + 1) := by
  unfold rootsByDepth
  have hmap : (clauseRoots d).map (fun t => (depthD d f t.i, t)) =
      (clauseRoots d).map (fun t => (depthD d (d.tokens.length + 1) t.i, t)) := by
    apply List.map_congr_left
    intro t ht
    rw [depthD_stable d hac t.i
      (wf_i_lt d hwf t ((List.mem_filter.mp ht).1)) f (by omega)]
  rw [hmap]

/-- C6: on every well-formed acyclic document, `segment` terminates:
the whole computation is independent of the fuel once it exceeds the
token count (both the recursive subtree walk and the head-chain loop
reach their fixed points), and the head-chain loop of the depth
computation returns a value for every token. -/
theorem segment_total (d : Doc) (hwf : WF d) (hac : Acyclic d)
    (f : Nat) (hf : d.tokens.length + 1 ≤ f) :
    segmentF d f = segment d ∧
    ∀ i, i < d.tokens.length → (computeDepthAux d f i 0).isSome = true := by
  constructor
  · show segmentF d f = segmentF d (d.tokens.length + 1)
    unfold segmentF emittedClauses
    rw [rootsByDepth_fuel_eq d hwf hac f hf,
        segFold_fuel_eq d hwf hac f hf _ (rootsByDepth_sub d _) ([], [])]
  · intro i hi
    rw [computeDepth_spec d d.tokens.length i 0 f (hac i hi) (by omega)]
    rfl

/-- Witness for C6 on the document "We slept ." with a larger fuel. -/
theorem segment_total_witness : segmentF smallDoc 5 = segment smallDoc :=
  (segment_total smallDoc (by decide) (by decide) 5 (by decide)).1

end Ebenezer
